import Mathlib

/-!
Shallow embedding of the `filefilter` crate (`src/lib.rs`): a stack-based
lazy directory walker whose items are filtered by AND-combined path
predicates.

The filesystem is modelled as an oracle `FS` that gives, for every path,
the result of the two primitives the code uses:

* `metadata`: the result of `fs::metadata(path)` reduced to the
  is-a-directory flag.  `Path::is_dir()` is `metadata(path)` with a failed
  check mapped to `false`, exactly as in the Rust standard library.
* `read_dir`: the result of `fs::read_dir(path)`; on success it returns
  the finite list of results the returned `ReadDir` iterator will yield,
  in order, before it is exhausted.

The Rust `Iterator::next` contains a `while` loop that genuinely diverges
on a cyclic filesystem, so the loop is embedded with explicit fuel
(`none` = fuel ran out, no verdict).  All theorems about complete
traversals of a finite tree supply fuel sufficient for the tree at hand.
-/

namespace FileFilterModel

/-- Paths are abstract strings (Rust `PathBuf`). -/
abbrev Path := String

/-- Error values (Rust `Box<dyn Error>`), abstracted to strings. -/
abbrev Err := String

/-- One produced item of the walker: `Result<PathBuf>`. -/
abbrev Item := Except Err Path

/-- The filesystem oracle: the two primitives used by the walker. -/
structure FS where
  /-- Result of `fs::metadata(path)` reduced to `FileType::is_dir()`;
  `.error e` models a failed `stat` (nonexistent path, permission error). -/
  metadata : Path → Except Err Bool
  /-- Result of `fs::read_dir(path)`: open failure, or the listing the
  iterator will yield (each entry a `Result<DirEntry>`, as a full path). -/
  read_dir : Path → Except Err (List Item)

/-- `Path::is_dir()`: `fs::metadata(path).map(|m| m.is_dir()).unwrap_or(false)`. -/
def FS.is_dir (fs : FS) (p : Path) : Bool :=
  match fs.metadata p with
  | .ok b => b
  | .error _ => false

/-- An open directory listing handle (`fs::ReadDir`): the directory it
lists and the results still to be yielded. -/
structure ReadDir where
  dir : Path
  items : List Item

/-- The walker state (`struct FileFilter`).  The head of `stack` is the
top of the Rust `Vec` (its last element). -/
structure FileFilter where
  predicates : List (Path → Bool)
  start : Option Path
  stack : List ReadDir

/-- `FileFilter::new(root)`. -/
def FileFilter.new (root : Path) : FileFilter :=
  { predicates := [], start := some root, stack := [] }

/-- `FileFilter::add_filter(predicate)`: append and return `self`. -/
def FileFilter.add_filter (s : FileFilter) (p : Path → Bool) : FileFilter :=
  { s with predicates := s.predicates ++ [p] }

/-- `FileFilter::push(entry)`: `read_dir` then push the listing. -/
def FileFilter.push (s : FileFilter) (fs : FS) (entry : Path) :
    Except Err FileFilter :=
  match fs.read_dir entry with
  | .error e => .error e
  | .ok items => .ok { s with stack := ⟨entry, items⟩ :: s.stack }

/-- `FileFilter::process_entry(path)`: returns the mutated state and the
`Option<Result<PathBuf>>` the Rust method returns. -/
def FileFilter.process_entry (s : FileFilter) (fs : FS) (path : Path) :
    FileFilter × Option Item :=
  if fs.is_dir path then
    match s.push fs path with
    | .error e => (s, some (.error e))
    | .ok s2 => (s2, none)
  else
    if s.predicates.all (fun f => f path) then
      (s, some (.ok path))
    else
      (s, none)

/-- The `while let Some(rd) = self.stack.last_mut()` loop of
`Iterator::next`, with explicit fuel (one unit per loop iteration;
`none` = fuel exhausted). -/
def FileFilter.nextLoop (fs : FS) (fuel : Nat) (s : FileFilter) :
    Option (Option Item × FileFilter) :=
  match fuel with
  | 0 => none
  | fuel + 1 =>
    match s.stack with
    | [] => some (none, s)
    | rd :: rest =>
      match rd.items with
      | [] => FileFilter.nextLoop fs fuel { s with stack := rest }
      | item :: more =>
        let s1 : FileFilter := { s with stack := ⟨rd.dir, more⟩ :: rest }
        match item with
        | .error e => some (some (.error e), s1)
        | .ok p =>
          match s1.process_entry fs p with
          | (s2, some r) => some (some r, s2)
          | (s2, none) => FileFilter.nextLoop fs fuel s2

/-- `Iterator::next` for `FileFilter`: consume `start` if present, then
run the stack loop.  `some (r, s2)` means the call returned `r`
(`none` = end of sequence) leaving state `s2`. -/
def FileFilter.next (s : FileFilter) (fs : FS) (fuel : Nat) :
    Option (Option Item × FileFilter) :=
  match s.start with
  | some start =>
    let s0 : FileFilter := { s with start := none }
    match s0.process_entry fs start with
    | (s1, some r) => some (some r, s1)
    | (s1, none) => FileFilter.nextLoop fs fuel s1
  | none => FileFilter.nextLoop fs fuel s

/-- Drive the walker to completion: the list of items produced by
repeatedly calling `next` until it signals end of sequence. -/
def FileFilter.run (fs : FS) : Nat → FileFilter → Option (List Item)
  | 0, _ => none
  | fuel + 1, s =>
    match s.next fs fuel with
    | none => none
    | some (none, _) => some []
    | some (some item, s2) =>
      match FileFilter.run fs fuel s2 with
      | none => none
      | some rest => some (item :: rest)

/-! ## Finite error-free directory trees

A concrete model of a finite, error-free filesystem: a rose tree whose
nodes carry their full paths.  `fsOfTree` turns it into an `FS` oracle. -/

mutual
/-- A finite directory tree; every node carries its full path. -/
inductive FsTree : Type where
  | file : Path → FsTree
  | dir : Path → FsForest → FsTree
/-- A finite list of sibling trees. -/
inductive FsForest : Type where
  | nil : FsForest
  | cons : FsTree → FsForest → FsForest
end

/-- The path at the root of a tree. -/
def FsTree.path : FsTree → Path
  | .file p => p
  | .dir p _ => p

mutual
/-- Number of nodes of a tree. -/
def FsTree.size : FsTree → Nat
  | .file _ => 1
  | .dir _ cs => 1 + FsForest.size cs
/-- Total number of nodes of a forest. -/
def FsForest.size : FsForest → Nat
  | .nil => 0
  | .cons c cs => FsTree.size c + FsForest.size cs
end

mutual
/-- The non-directory paths of a tree, in depth-first order. -/
def FsTree.files : FsTree → List Path
  | .file p => [p]
  | .dir _ cs => FsForest.files cs
/-- The non-directory paths of a forest, in depth-first order. -/
def FsForest.files : FsForest → List Path
  | .nil => []
  | .cons c cs => FsTree.files c ++ FsForest.files cs
end

mutual
/-- All node paths of a tree. -/
def FsTree.paths : FsTree → List Path
  | .file p => [p]
  | .dir p cs => p :: FsForest.paths cs
/-- All node paths of a forest. -/
def FsForest.paths : FsForest → List Path
  | .nil => []
  | .cons c cs => FsTree.paths c ++ FsForest.paths cs
end

mutual
/-- Find the directory node with the given path; return its children. -/
def FsTree.lookupDir : FsTree → Path → Option FsForest
  | .file _, _ => none
  | .dir p cs, q => if p = q then some cs else FsForest.lookupDir cs q
/-- Forest version of `FsTree.lookupDir`. -/
def FsForest.lookupDir : FsForest → Path → Option FsForest
  | .nil, _ => none
  | .cons c cs, q =>
    match FsTree.lookupDir c q with
    | some r => some r
    | none => FsForest.lookupDir cs q
end

mutual
/-- All subtrees of a tree (the tree itself included). -/
def FsTree.subtrees : FsTree → List FsTree
  | .file p => [.file p]
  | .dir p cs => .dir p cs :: FsForest.subtrees cs
/-- All subtrees of the trees of a forest. -/
def FsForest.subtrees : FsForest → List FsTree
  | .nil => []
  | .cons c cs => FsTree.subtrees c ++ FsForest.subtrees cs
end

/-- The trees of a forest, as a list. -/
def FsForest.toList : FsForest → List FsTree
  | .nil => []
  | .cons c cs => c :: FsForest.toList cs

/-- The entry results that listing a forest of children yields: one
successful entry per child, carrying its path. -/
def itemsOf : FsForest → List Item
  | .nil => []
  | .cons c cs => .ok c.path :: itemsOf cs

/-- The error-free filesystem oracle of a finite tree: `metadata` always
succeeds and reports exactly the directory nodes; `read_dir` succeeds on
directory nodes with the listing of their children. -/
def fsOfTree (t : FsTree) : FS where
  metadata p := .ok (t.lookupDir p).isSome
  read_dir p :=
    match t.lookupDir p with
    | some cs => .ok (itemsOf cs)
    | none => .error "not a directory"

/-! ## Structural facts about trees -/

/-- Every tree is one of its own subtrees. -/
theorem FsTree.mem_subtrees_self : ∀ t : FsTree, t ∈ t.subtrees
  | .file p => by simp [FsTree.subtrees]
  | .dir p cs => by simp [FsTree.subtrees]

/-- A tree of a forest is among the forest's subtrees. -/
theorem FsForest.toList_subset_subtrees :
    ∀ (cs : FsForest) (c : FsTree), c ∈ cs.toList → c ∈ FsForest.subtrees cs
  | .nil, c, h => by simp [FsForest.toList] at h
  | .cons c0 cs, c, h => by
    rcases List.mem_cons.mp (by simpa [FsForest.toList] using h) with h | h
    · subst h
      exact List.mem_append_left _ (FsTree.mem_subtrees_self c)
    · exact List.mem_append_right _ (FsForest.toList_subset_subtrees cs c h)

mutual
/-- Subtree membership is transitive. -/
theorem FsTree.subtrees_trans :
    ∀ (t c d : FsTree), c ∈ t.subtrees → d ∈ c.subtrees → d ∈ t.subtrees
  | .file p, c, d, hc, hd => by
    simp [FsTree.subtrees] at hc
    subst hc
    exact hd
  | .dir p cs, c, d, hc, hd => by
    rw [FsTree.subtrees] at hc ⊢
    rcases List.mem_cons.mp hc with h | h
    · subst h
      rw [FsTree.subtrees] at hd
      exact hd
    · exact List.mem_cons_of_mem _ (FsForest.subtrees_trans_forest cs c d h hd)
/-- Forest version of `FsTree.subtrees_trans`. -/
theorem FsForest.subtrees_trans_forest :
    ∀ (cs : FsForest) (c d : FsTree),
      c ∈ FsForest.subtrees cs → d ∈ c.subtrees → d ∈ FsForest.subtrees cs
  | .nil, c, d, hc, _ => by simp [FsForest.subtrees] at hc
  | .cons c0 cs, c, d, hc, hd => by
    rw [FsForest.subtrees] at hc ⊢
    rcases List.mem_append.mp hc with h | h
    · exact List.mem_append_left _ (FsTree.subtrees_trans c0 c d h hd)
    · exact List.mem_append_right _ (FsForest.subtrees_trans_forest cs c d h hd)
end

mutual
/-- The node paths are exactly the paths of the subtrees, in order. -/
theorem FsTree.paths_eq_map : ∀ t : FsTree, t.paths = t.subtrees.map FsTree.path
  | .file p => by simp [FsTree.paths, FsTree.subtrees, FsTree.path]
  | .dir p cs => by
    simp [FsTree.paths, FsTree.subtrees, FsTree.path, FsForest.paths_eq_map_forest cs]
/-- Forest version of `FsTree.paths_eq_map`. -/
theorem FsForest.paths_eq_map_forest :
    ∀ cs : FsForest, FsForest.paths cs = (FsForest.subtrees cs).map FsTree.path
  | .nil => by simp [FsForest.paths, FsForest.subtrees]
  | .cons c cs => by
    simp [FsForest.paths, FsForest.subtrees, FsTree.paths_eq_map c,
      FsForest.paths_eq_map_forest cs]
end

mutual
/-- A successful directory lookup names a directory subtree. -/
theorem FsTree.lookupDir_mem :
    ∀ (t : FsTree) (q : Path) (ds : FsForest),
      t.lookupDir q = some ds → FsTree.dir q ds ∈ t.subtrees
  | .file p, q, ds, h => by simp [FsTree.lookupDir] at h
  | .dir p cs, q, ds, h => by
    rw [FsTree.lookupDir] at h
    rw [FsTree.subtrees]
    by_cases hpq : p = q
    · simp only [hpq, if_pos rfl] at h
      obtain rfl : cs = ds := by injection h
      subst hpq
      exact List.mem_cons_self _ _
    · simp only [if_neg hpq] at h
      exact List.mem_cons_of_mem _ (FsForest.lookupDir_mem_forest cs q ds h)
/-- Forest version of `FsTree.lookupDir_mem`. -/
theorem FsForest.lookupDir_mem_forest :
    ∀ (cs : FsForest) (q : Path) (ds : FsForest),
      FsForest.lookupDir cs q = some ds → FsTree.dir q ds ∈ FsForest.subtrees cs
  | .nil, q, ds, h => by simp [FsForest.lookupDir] at h
  | .cons c cs, q, ds, h => by
    rw [FsForest.lookupDir] at h
    rw [FsForest.subtrees]
    cases hc : FsTree.lookupDir c q with
    | some r =>
      rw [hc] at h
      obtain rfl : r = ds := by injection h
      exact List.mem_append_left _ (FsTree.lookupDir_mem c q _ hc)
    | none =>
      rw [hc] at h
      exact List.mem_append_right _ (FsForest.lookupDir_mem_forest cs q ds h)
end

mutual
/-- A directory subtree makes the lookup of its path succeed. -/
theorem FsTree.lookupDir_isSome :
    ∀ (t : FsTree) (q : Path) (ds : FsForest),
      FsTree.dir q ds ∈ t.subtrees → (t.lookupDir q).isSome
  | .file p, q, ds, h => by simp [FsTree.subtrees] at h
  | .dir p cs, q, ds, h => by
    rw [FsTree.subtrees] at h
    rw [FsTree.lookupDir]
    by_cases hpq : p = q
    · simp [hpq]
    · simp only [if_neg hpq]
      rcases List.mem_cons.mp h with h | h
      · exact absurd (by injection h with h1 _; exact h1.symm) hpq
      · exact FsForest.lookupDir_isSome_forest cs q ds h
/-- Forest version of `FsTree.lookupDir_isSome`. -/
theorem FsForest.lookupDir_isSome_forest :
    ∀ (cs : FsForest) (q : Path) (ds : FsForest),
      FsTree.dir q ds ∈ FsForest.subtrees cs → (FsForest.lookupDir cs q).isSome
  | .nil, q, ds, h => by simp [FsForest.subtrees] at h
  | .cons c cs, q, ds, h => by
    rw [FsForest.subtrees] at h
    rw [FsForest.lookupDir]
    rcases List.mem_append.mp h with h | h
    · have := FsTree.lookupDir_isSome c q ds h
      cases hc : FsTree.lookupDir c q with
      | some r => simp
      | none => rw [hc] at this; simp at this
    · cases hc : FsTree.lookupDir c q with
      | some r => simp
      | none => exact FsForest.lookupDir_isSome_forest cs q ds h
end

mutual
/-- The files of a tree are a sublist of its node paths. -/
theorem FsTree.files_sublist_paths : ∀ t : FsTree, t.files.Sublist t.paths
  | .file p => by simp [FsTree.files, FsTree.paths]
  | .dir p cs => by
    rw [FsTree.files, FsTree.paths]
    exact (FsForest.files_sublist_paths_forest cs).cons p
/-- Forest version of `FsTree.files_sublist_paths`. -/
theorem FsForest.files_sublist_paths_forest :
    ∀ cs : FsForest, (FsForest.files cs).Sublist (FsForest.paths cs)
  | .nil => by simp [FsForest.files, FsForest.paths]
  | .cons c cs => by
    rw [FsForest.files, FsForest.paths]
    exact (FsTree.files_sublist_paths c).append (FsForest.files_sublist_paths_forest cs)
end

/-- With distinct node paths, a directory subtree is looked up to exactly
its own children. -/
theorem FsTree.lookupDir_of_mem_dir {t : FsTree} {q : Path} {ds : FsForest}
    (hnd : t.paths.Nodup) (h : FsTree.dir q ds ∈ t.subtrees) :
    t.lookupDir q = some ds := by
  have hmap : (t.subtrees.map FsTree.path).Nodup := by
    rw [← FsTree.paths_eq_map]; exact hnd
  obtain ⟨r, hr⟩ := Option.isSome_iff_exists.mp (FsTree.lookupDir_isSome t q ds h)
  have hmem := FsTree.lookupDir_mem t q r hr
  have heq : FsTree.dir q r = FsTree.dir q ds :=
    List.inj_on_of_nodup_map hmap hmem h rfl
  obtain rfl : r = ds := by injection heq
  exact hr

/-- With distinct node paths, the path of a file subtree is not the path
of any directory, so its lookup fails. -/
theorem FsTree.lookupDir_of_mem_file {t : FsTree} {q : Path}
    (hnd : t.paths.Nodup) (h : FsTree.file q ∈ t.subtrees) :
    t.lookupDir q = none := by
  have hmap : (t.subtrees.map FsTree.path).Nodup := by
    rw [← FsTree.paths_eq_map]; exact hnd
  cases hl : t.lookupDir q with
  | none => rfl
  | some r =>
    have hmem := FsTree.lookupDir_mem t q r hl
    have heq : FsTree.dir q r = FsTree.file q :=
      List.inj_on_of_nodup_map hmap hmem h rfl
    exact absurd heq (by simp)

/-- The oracle of a tree classifies as directories exactly the paths
whose lookup succeeds. -/
theorem fsOfTree_is_dir (t : FsTree) (p : Path) :
    (fsOfTree t).is_dir p = (t.lookupDir p).isSome := rfl

/-- The oracle of a tree lists a directory node by its children. -/
theorem fsOfTree_read_dir {t : FsTree} {p : Path} {ds : FsForest}
    (h : t.lookupDir p = some ds) :
    (fsOfTree t).read_dir p = .ok (itemsOf ds) := by
  simp [fsOfTree, h]

/-! ## Characterizing a complete traversal of an error-free tree

The stack states reachable while walking `fsOfTree t` are images of
lists of frames: each frame is the directory of an open listing together
with the child trees its handle has not yielded yet. -/

/-- A pending frame: the directory of an open listing and the subtrees
its handle has still to yield. -/
abbrev Frame := Path × FsForest

/-- The stack of listing handles corresponding to a list of frames. -/
def stackOf : List Frame → List ReadDir
  | [] => []
  | fr :: frs => ⟨fr.1, itemsOf fr.2⟩ :: stackOf frs

/-- The files still pending in a list of frames, in traversal order. -/
def pendingFiles : List Frame → List Path
  | [] => []
  | fr :: frs => FsForest.files fr.2 ++ pendingFiles frs

/-- Loop measure: strictly decreases with every iteration of the stack
loop of `next`. -/
def framesMeasure : List Frame → Nat
  | [] => 0
  | fr :: frs => 2 * FsForest.size fr.2 + 1 + framesMeasure frs

/-- Every tree pending in the frames is a subtree of `t`. -/
def goodFrames (t : FsTree) (frs : List Frame) : Prop :=
  ∀ fr ∈ frs, ∀ c ∈ FsForest.toList fr.2, c ∈ t.subtrees

/-- The conjunction of a list of predicates at one path, the test of
`process_entry`. -/
def passesAll (ps : List (Path → Bool)) (p : Path) : Bool :=
  ps.all fun f => f p

theorem goodFrames_nil {t : FsTree} : goodFrames t [] := by
  intro fr h
  simp at h

theorem goodFrames_tail {t : FsTree} {fr : Frame} {frs : List Frame}
    (h : goodFrames t (fr :: frs)) : goodFrames t frs :=
  fun fr2 h2 => h fr2 (List.mem_cons_of_mem _ h2)

theorem goodFrames_head {t : FsTree} {d : Path} {c : FsTree} {cs : FsForest}
    {frs : List Frame} (h : goodFrames t ((d, FsForest.cons c cs) :: frs)) :
    c ∈ t.subtrees :=
  h (d, FsForest.cons c cs) (List.mem_cons_self _ _) c (by simp [FsForest.toList])

theorem goodFrames_shift {t : FsTree} {d : Path} {c : FsTree} {cs : FsForest}
    {frs : List Frame} (h : goodFrames t ((d, FsForest.cons c cs) :: frs)) :
    goodFrames t ((d, cs) :: frs) := by
  intro fr hfr c2 hc2
  rcases List.mem_cons.mp hfr with hfr | hfr
  · subst hfr
    exact h (d, FsForest.cons c cs) (List.mem_cons_self _ _) c2
      (by simp [FsForest.toList]; right; simpa using hc2)
  · exact h fr (List.mem_cons_of_mem _ hfr) c2 hc2

theorem goodFrames_push {t : FsTree} {d q : Path} {ds cs : FsForest}
    {frs : List Frame}
    (h : goodFrames t ((d, FsForest.cons (FsTree.dir q ds) cs) :: frs)) :
    goodFrames t ((q, ds) :: (d, cs) :: frs) := by
  have hsub : FsTree.dir q ds ∈ t.subtrees := goodFrames_head h
  intro fr hfr c2 hc2
  rcases List.mem_cons.mp hfr with hfr | hfr
  · subst hfr
    have : c2 ∈ (FsTree.dir q ds).subtrees := by
      rw [FsTree.subtrees]
      exact List.mem_cons_of_mem _ (FsForest.toList_subset_subtrees _ _ hc2)
    exact FsTree.subtrees_trans t _ c2 hsub this
  · exact goodFrames_shift h fr hfr c2 hc2

/-- One full activation of the stack loop of `next` on a frame stack of
an error-free tree: either the whole stack drains with no file passing
the predicates, or the first passing file is returned and the stack is
again the image of a (smaller, still good) frame list whose pending
files are the remaining ones. -/
theorem nextLoop_frames {t : FsTree} (hnd : t.paths.Nodup)
    (ps : List (Path → Bool)) :
    ∀ (n : Nat) (frs : List Frame), goodFrames t frs → framesMeasure frs < n →
      (FileFilter.nextLoop (fsOfTree t) n ⟨ps, none, stackOf frs⟩ =
          some (none, ⟨ps, none, []⟩) ∧
        (pendingFiles frs).filter (passesAll ps) = []) ∨
      (∃ p frs2,
        FileFilter.nextLoop (fsOfTree t) n ⟨ps, none, stackOf frs⟩ =
          some (some (.ok p), ⟨ps, none, stackOf frs2⟩) ∧
        passesAll ps p = true ∧ goodFrames t frs2 ∧
        (pendingFiles frs).filter (passesAll ps) =
          p :: (pendingFiles frs2).filter (passesAll ps) ∧
        framesMeasure frs2 + 2 ≤ framesMeasure frs) := by
  intro n
  induction n with
  | zero => intro frs _ hm; exact absurd hm (by omega)
  | succ n ih =>
    intro frs hg hm
    rcases frs with _ | ⟨⟨d, ts⟩, frs'⟩
    · left
      refine ⟨by simp [FileFilter.nextLoop, stackOf], by simp [pendingFiles]⟩
    rcases ts with _ | ⟨c, cs⟩
    · -- exhausted listing on top: pop and continue
      have step : FileFilter.nextLoop (fsOfTree t) (n + 1)
            ⟨ps, none, stackOf ((d, FsForest.nil) :: frs')⟩ =
          FileFilter.nextLoop (fsOfTree t) n ⟨ps, none, stackOf frs'⟩ := by
        simp [FileFilter.nextLoop, stackOf, itemsOf]
      have hm' : framesMeasure frs' < n := by
        simp only [framesMeasure, FsForest.size] at hm; omega
      rcases ih frs' (goodFrames_tail hg) hm' with ⟨h1, h2⟩ | ⟨p, frs2, h1, h2, h3, h4, h5⟩
      · exact Or.inl ⟨step.trans h1, by
          simpa [pendingFiles, FsForest.files] using h2⟩
      · refine Or.inr ⟨p, frs2, step.trans h1, h2, h3, ?_, ?_⟩
        · simpa [pendingFiles, FsForest.files] using h4
        · simp only [framesMeasure, FsForest.size] at h5 ⊢; omega
    rcases c with p | ⟨q, ds⟩
    · -- top entry is a file
      have hl : t.lookupDir p = none :=
        FsTree.lookupDir_of_mem_file hnd (goodFrames_head hg)
      have hfile : (fsOfTree t).is_dir p = false := by
        simp [fsOfTree_is_dir, hl]
      cases hp : passesAll ps p with
      | true =>
        have step : FileFilter.nextLoop (fsOfTree t) (n + 1)
              ⟨ps, none, stackOf ((d, FsForest.cons (FsTree.file p) cs) :: frs')⟩ =
            some (some (.ok p), ⟨ps, none, stackOf ((d, cs) :: frs')⟩) := by
          have hp' : ps.all (fun f => f p) = true := hp
          simp [FileFilter.nextLoop, stackOf, itemsOf, FsTree.path,
            FileFilter.process_entry, hfile, hp']
        refine Or.inr ⟨p, (d, cs) :: frs', step, hp, goodFrames_shift hg, ?_, ?_⟩
        · simp [pendingFiles, FsForest.files, FsTree.files, List.filter_cons, hp]
        · simp only [framesMeasure, FsForest.size, FsTree.size]; omega
      | false =>
        have step : FileFilter.nextLoop (fsOfTree t) (n + 1)
              ⟨ps, none, stackOf ((d, FsForest.cons (FsTree.file p) cs) :: frs')⟩ =
            FileFilter.nextLoop (fsOfTree t) n ⟨ps, none, stackOf ((d, cs) :: frs')⟩ := by
          have hp' : ps.all (fun f => f p) = false := hp
          simp [FileFilter.nextLoop, stackOf, itemsOf, FsTree.path,
            FileFilter.process_entry, hfile, hp']
        have hm' : framesMeasure ((d, cs) :: frs') < n := by
          simp only [framesMeasure, FsForest.size, FsTree.size] at hm ⊢; omega
        rcases ih ((d, cs) :: frs') (goodFrames_shift hg) hm' with
          ⟨h1, h2⟩ | ⟨p2, frs2, h1, h2, h3, h4, h5⟩
        · refine Or.inl ⟨step.trans h1, ?_⟩
          simpa [pendingFiles, FsForest.files, FsTree.files, List.filter_cons, hp]
            using h2
        · refine Or.inr ⟨p2, frs2, step.trans h1, h2, h3, ?_, ?_⟩
          · simpa [pendingFiles, FsForest.files, FsTree.files, List.filter_cons, hp]
              using h4
          · simp only [framesMeasure, FsForest.size, FsTree.size] at h5 ⊢; omega
    · -- top entry is a directory: open it and push the listing
      have hl : t.lookupDir q = some ds :=
        FsTree.lookupDir_of_mem_dir hnd (goodFrames_head hg)
      have hdir : (fsOfTree t).is_dir q = true := by
        simp [fsOfTree_is_dir, hl]
      have hrd : (fsOfTree t).read_dir q = .ok (itemsOf ds) := fsOfTree_read_dir hl
      have step : FileFilter.nextLoop (fsOfTree t) (n + 1)
            ⟨ps, none, stackOf ((d, FsForest.cons (FsTree.dir q ds) cs) :: frs')⟩ =
          FileFilter.nextLoop (fsOfTree t) n
            ⟨ps, none, stackOf ((q, ds) :: (d, cs) :: frs')⟩ := by
        simp [FileFilter.nextLoop, stackOf, itemsOf, FsTree.path,
          FileFilter.process_entry, FileFilter.push, hdir, hrd]
      have hm' : framesMeasure ((q, ds) :: (d, cs) :: frs') < n := by
        simp only [framesMeasure, FsForest.size, FsTree.size] at hm ⊢; omega
      rcases ih ((q, ds) :: (d, cs) :: frs') (goodFrames_push hg) hm' with
        ⟨h1, h2⟩ | ⟨p2, frs2, h1, h2, h3, h4, h5⟩
      · refine Or.inl ⟨step.trans h1, ?_⟩
        simpa [pendingFiles, FsForest.files, FsTree.files, List.append_assoc]
          using h2
      · refine Or.inr ⟨p2, frs2, step.trans h1, h2, h3, ?_, ?_⟩
        · simpa [pendingFiles, FsForest.files, FsTree.files, List.append_assoc]
            using h4
        · simp only [framesMeasure, FsForest.size, FsTree.size] at h5 ⊢; omega

/-- A complete run over a good frame stack of an error-free tree
produces exactly the pending files that pass all predicates, in order. -/
theorem run_frames {t : FsTree} (hnd : t.paths.Nodup)
    (ps : List (Path → Bool)) :
    ∀ (fuel : Nat) (frs : List Frame), goodFrames t frs →
      framesMeasure frs + 1 < fuel →
      FileFilter.run (fsOfTree t) fuel ⟨ps, none, stackOf frs⟩ =
        some (((pendingFiles frs).filter (passesAll ps)).map Except.ok) := by
  intro fuel
  induction fuel with
  | zero => intro frs _ hm; exact absurd hm (by omega)
  | succ n ih =>
    intro frs hg hm
    have hnext : FileFilter.next ⟨ps, none, stackOf frs⟩ (fsOfTree t) n =
        FileFilter.nextLoop (fsOfTree t) n ⟨ps, none, stackOf frs⟩ := by
      simp [FileFilter.next]
    rcases nextLoop_frames hnd ps n frs hg (by omega) with
      ⟨h1, h2⟩ | ⟨p, frs2, h1, h2, h3, h4, h5⟩
    · simp only [FileFilter.run, hnext, h1, h2, List.map_nil]
    · simp only [FileFilter.run, hnext, h1]
      rw [ih frs2 h3 (by omega)]
      simp [h4]

/-- If two states are indistinguishable to `next`, `run` treats them the
same. -/
theorem run_next_congr {fs : FS} {s s2 : FileFilter}
    (h : ∀ m, FileFilter.next s fs m = FileFilter.next s2 fs m) :
    ∀ fuel, FileFilter.run fs fuel s = FileFilter.run fs fuel s2 := by
  intro fuel
  cases fuel with
  | zero => rfl
  | succ n =>
    simp only [FileFilter.run]
    rw [h n]

/-- Main characterization: driving a walker with predicate list `ps`
from the root of a finite error-free tree with distinct paths produces
exactly the files of the tree that pass all predicates, each once, in
depth-first order. -/
theorem run_tree (t : FsTree) (ps : List (Path → Bool)) (fuel : Nat)
    (hnd : t.paths.Nodup) (hf : 2 * t.size + 1 < fuel) :
    FileFilter.run (fsOfTree t) fuel ⟨ps, some t.path, []⟩ =
      some ((t.files.filter (passesAll ps)).map Except.ok) := by
  rcases t with p | ⟨q, cs⟩
  · -- the root itself is not a directory
    have hl : (FsTree.file p).lookupDir p = none := rfl
    have hfile : (fsOfTree (FsTree.file p)).is_dir p = false := by
      simp [fsOfTree_is_dir, hl]
    simp only [FsTree.path]
    rcases fuel with _ | n
    · exact absurd hf (by omega)
    cases hp : passesAll ps p with
    | true =>
      have hp' : ps.all (fun f => f p) = true := hp
      have hnext : FileFilter.next ⟨ps, some p, []⟩ (fsOfTree (FsTree.file p)) n =
          some (some (.ok p), ⟨ps, none, []⟩) := by
        simp [FileFilter.next, FileFilter.process_entry, hfile, hp']
      have hrest : FileFilter.run (fsOfTree (FsTree.file p)) n ⟨ps, none, []⟩ =
          some [] := by
        have := run_frames (t := FsTree.file p) hnd ps n [] goodFrames_nil
          (by simp only [FsTree.size] at hf; simp [framesMeasure]; omega)
        simpa [stackOf, pendingFiles] using this
      simp only [FileFilter.run, hnext, hrest]
      simp [FsTree.files, List.filter_cons, hp]
    | false =>
      have hp' : ps.all (fun f => f p) = false := hp
      rcases n with _ | m
      · simp only [FsTree.size] at hf; omega
      have hnext : FileFilter.next ⟨ps, some p, []⟩ (fsOfTree (FsTree.file p)) (m + 1) =
          some (none, ⟨ps, none, []⟩) := by
        simp [FileFilter.next, FileFilter.process_entry, hfile, hp',
          FileFilter.nextLoop]
      simp only [FileFilter.run, hnext]
      simp [FsTree.files, List.filter_cons, hp]
  · -- the root is a directory: consuming the seed pushes its listing
    have hl : (FsTree.dir q cs).lookupDir q = some cs := by
      simp [FsTree.lookupDir]
    have hdir : (fsOfTree (FsTree.dir q cs)).is_dir q = true := by
      simp [fsOfTree_is_dir, hl]
    have hrd : (fsOfTree (FsTree.dir q cs)).read_dir q = .ok (itemsOf cs) :=
      fsOfTree_read_dir hl
    have hnext : ∀ m,
        FileFilter.next ⟨ps, some q, []⟩ (fsOfTree (FsTree.dir q cs)) m =
          FileFilter.next ⟨ps, none, stackOf [(q, cs)]⟩ (fsOfTree (FsTree.dir q cs)) m := by
      intro m
      simp [FileFilter.next, FileFilter.process_entry, FileFilter.push,
        hdir, hrd, stackOf]
    have hgood : goodFrames (FsTree.dir q cs) [(q, cs)] := by
      intro fr hfr c2 hc2
      rcases List.mem_cons.mp hfr with hfr | hfr
      · subst hfr
        rw [FsTree.subtrees]
        exact List.mem_cons_of_mem _ (FsForest.toList_subset_subtrees _ _ hc2)
      · simp at hfr
    rw [show (FsTree.dir q cs).path = q from rfl] at *
    rw [run_next_congr hnext fuel]
    rw [run_frames hnd ps fuel [(q, cs)] hgood
      (by simp only [framesMeasure, FsTree.size] at hf ⊢; omega)]
    simp [pendingFiles, FsTree.files]

/-! ## Per-call soundness over an arbitrary filesystem oracle -/

/-- `process_entry` keeps the predicate list and the start seed, and a
successful item is the processed path, passing every predicate, with a
false directory check. -/
theorem process_entry_sound {s s2 : FileFilter} {fs : FS} {q : Path}
    {out : Option Item} (h : FileFilter.process_entry s fs q = (s2, out)) :
    s2.predicates = s.predicates ∧ s2.start = s.start ∧
      ∀ p, out = some (.ok p) →
        p = q ∧ passesAll s.predicates p = true ∧ fs.is_dir p = false := by
  by_cases hd : fs.is_dir q
  · cases hrd : fs.read_dir q with
    | error e =>
      simp [FileFilter.process_entry, FileFilter.push, hd, hrd] at h
      obtain ⟨rfl, rfl⟩ := h
      exact ⟨rfl, rfl, fun p hp => by simp at hp⟩
    | ok items =>
      simp [FileFilter.process_entry, FileFilter.push, hd, hrd] at h
      obtain ⟨rfl, rfl⟩ := h
      exact ⟨rfl, rfl, fun p hp => by simp at hp⟩
  · cases hp : s.predicates.all (fun f => f q) with
    | true =>
      simp [FileFilter.process_entry, hd, hp] at h
      obtain ⟨rfl, rfl⟩ := h
      refine ⟨rfl, rfl, fun p hpo => ?_⟩
      obtain rfl : p = q := by simpa using hpo.symm
      exact ⟨rfl, hp, by simpa using hd⟩
    | false =>
      simp [FileFilter.process_entry, hd, hp] at h
      obtain ⟨rfl, rfl⟩ := h
      exact ⟨rfl, rfl, fun p hpo => by simp at hpo⟩

/-- The stack loop keeps the predicate list and the start seed, and any
successful item it returns passes every predicate and is not a
directory. -/
theorem nextLoop_sound {fs : FS} :
    ∀ (fuel : Nat) (s : FileFilter) (r : Option Item) (s2 : FileFilter),
      FileFilter.nextLoop fs fuel s = some (r, s2) →
      s2.predicates = s.predicates ∧ s2.start = s.start ∧
        ∀ p, r = some (.ok p) →
          passesAll s.predicates p = true ∧ fs.is_dir p = false := by
  intro fuel
  induction fuel with
  | zero => intro s r s2 h; simp [FileFilter.nextLoop] at h
  | succ n ih =>
    rintro ⟨sp, sst, sstk⟩ r s2 h
    rcases sstk with _ | ⟨⟨d, its⟩, rest⟩
    · simp only [FileFilter.nextLoop, Option.some.injEq, Prod.mk.injEq] at h
      obtain ⟨rfl, rfl⟩ := h
      exact ⟨rfl, rfl, fun p hp => by simp at hp⟩
    rcases its with _ | ⟨item, more⟩
    · simp only [FileFilter.nextLoop] at h
      exact ih ⟨sp, sst, rest⟩ r s2 h
    rcases item with e | p0
    · simp only [FileFilter.nextLoop, Option.some.injEq, Prod.mk.injEq] at h
      obtain ⟨rfl, rfl⟩ := h
      exact ⟨rfl, rfl, fun p hp => by simp at hp⟩
    · simp only [FileFilter.nextLoop] at h
      cases hpe : FileFilter.process_entry ⟨sp, sst, ⟨d, more⟩ :: rest⟩ fs p0 with
      | mk s3 out =>
        rw [hpe] at h
        obtain ⟨hp1, hp2, hp3⟩ := process_entry_sound hpe
        cases out with
        | some r0 =>
          simp only [Option.some.injEq, Prod.mk.injEq] at h
          obtain ⟨rfl, rfl⟩ := h
          exact ⟨hp1, hp2, fun p hp => ((hp3 p hp).2).imp (fun a => a) (fun a => a)⟩
        | none =>
          simp only at h
          obtain ⟨h1, h2, h3⟩ := ih s3 r s2 h
          refine ⟨h1.trans hp1, h2.trans hp2, fun p hp => ?_⟩
          have := h3 p hp
          rwa [hp1] at this

/-- One `next` call keeps the predicate list, leaves the start seed
consumed, and any successful item it returns passes every predicate and
is not a directory. -/
theorem next_sound {fs : FS} {fuel : Nat} {s : FileFilter} {r : Option Item}
    {s2 : FileFilter} (h : FileFilter.next s fs fuel = some (r, s2)) :
    s2.predicates = s.predicates ∧ s2.start = none ∧
      ∀ p, r = some (.ok p) →
        passesAll s.predicates p = true ∧ fs.is_dir p = false := by
  rcases hst : s.start with _ | root
  · rw [FileFilter.next, hst] at h
    obtain ⟨h1, h2, h3⟩ := nextLoop_sound fuel s r s2 h
    exact ⟨h1, h2.trans hst, h3⟩
  · rw [FileFilter.next, hst] at h
    simp only at h
    cases hpe : FileFilter.process_entry { s with start := none } fs root with
    | mk s1 out =>
      rw [hpe] at h
      obtain ⟨hp1, hp2, hp3⟩ := process_entry_sound hpe
      simp only at hp1 hp2
      cases out with
      | some r0 =>
        obtain ⟨rfl, rfl⟩ : some r0 = r ∧ s1 = s2 := by simpa using h
        exact ⟨hp1, hp2, fun p hp =>
          ((hp3 p hp).2).imp (fun a => a) (fun a => a)⟩
      | none =>
        simp only at h
        obtain ⟨h1, h2, h3⟩ := nextLoop_sound fuel s1 r s2 h
        refine ⟨h1.trans hp1, h2.trans hp2, fun p hp => ?_⟩
        have := h3 p hp
        rwa [hp1] at this

/-- Every successful item of a complete run passes every registered
predicate and is not a directory on the oracle. -/
theorem run_sound {fs : FS} :
    ∀ (fuel : Nat) (s : FileFilter) (out : List Item),
      FileFilter.run fs fuel s = some out →
      ∀ p, Except.ok p ∈ out →
        passesAll s.predicates p = true ∧ fs.is_dir p = false := by
  intro fuel
  induction fuel with
  | zero => intro s out h; simp [FileFilter.run] at h
  | succ n ih =>
    intro s out h p hp
    rw [FileFilter.run] at h
    cases hn : FileFilter.next s fs n with
    | none => rw [hn] at h; simp at h
    | some v =>
      obtain ⟨r, s2⟩ := v
      rw [hn] at h
      obtain ⟨h1, _, h3⟩ := next_sound hn
      cases r with
      | none =>
        obtain rfl : ([] : List Item) = out := by simpa using h
        simp at hp
      | some item =>
        simp only at h
        cases hr : FileFilter.run fs n s2 with
        | none => rw [hr] at h; simp at h
        | some rest =>
          rw [hr] at h
          obtain rfl : item :: rest = out := by simpa using h
          rcases List.mem_cons.mp hp with hp | hp
          · exact h3 p (by rw [hp])
          · have := ih s2 rest hr p hp
            rwa [h1] at this

/-! ## Predicate order does not change behaviour

If two predicate lists agree as conjunctions at every path, the walker
behaves identically under them (same items, same stacks). -/

/-- `process_entry` under conjunction-equивalent predicate lists. -/
theorem process_entry_congr {fs : FS} {ps qs : List (Path → Bool)}
    (h : ∀ p, passesAll ps p = passesAll qs p) (st : Option Path)
    (stk : List ReadDir) (q : Path) :
    ∃ out stk2,
      FileFilter.process_entry ⟨ps, st, stk⟩ fs q = (⟨ps, st, stk2⟩, out) ∧
      FileFilter.process_entry ⟨qs, st, stk⟩ fs q = (⟨qs, st, stk2⟩, out) := by
  by_cases hd : fs.is_dir q
  · cases hrd : fs.read_dir q with
    | error e =>
      exact ⟨some (.error e), stk,
        by simp [FileFilter.process_entry, FileFilter.push, hd, hrd],
        by simp [FileFilter.process_entry, FileFilter.push, hd, hrd]⟩
    | ok items =>
      exact ⟨none, ⟨q, items⟩ :: stk,
        by simp [FileFilter.process_entry, FileFilter.push, hd, hrd],
        by simp [FileFilter.process_entry, FileFilter.push, hd, hrd]⟩
  · have hq : qs.all (fun f => f q) = ps.all (fun f => f q) := (h q).symm
    cases hp : ps.all (fun f => f q) with
    | true =>
      exact ⟨some (.ok q), stk,
        by simp [FileFilter.process_entry, hd, hp],
        by simp [FileFilter.process_entry, hd, hq, hp]⟩
    | false =>
      exact ⟨none, stk,
        by simp [FileFilter.process_entry, hd, hp],
        by simp [FileFilter.process_entry, hd, hq, hp]⟩

/-- The stack loop under conjunction-equivalent predicate lists. -/
theorem nextLoop_congr {fs : FS} {ps qs : List (Path → Bool)}
    (h : ∀ p, passesAll ps p = passesAll qs p) :
    ∀ (fuel : Nat) (st : Option Path) (stk : List ReadDir),
      (FileFilter.nextLoop fs fuel ⟨ps, st, stk⟩ = none ∧
        FileFilter.nextLoop fs fuel ⟨qs, st, stk⟩ = none) ∨
      (∃ r stk2,
        FileFilter.nextLoop fs fuel ⟨ps, st, stk⟩ = some (r, ⟨ps, st, stk2⟩) ∧
        FileFilter.nextLoop fs fuel ⟨qs, st, stk⟩ = some (r, ⟨qs, st, stk2⟩)) := by
  intro fuel
  induction fuel with
  | zero => intro st stk; exact Or.inl ⟨rfl, rfl⟩
  | succ n ih =>
    intro st stk
    rcases stk with _ | ⟨⟨d, its⟩, rest⟩
    · exact Or.inr ⟨none, [], by simp [FileFilter.nextLoop], by simp [FileFilter.nextLoop]⟩
    rcases its with _ | ⟨item, more⟩
    · have stepP : FileFilter.nextLoop fs (n + 1) ⟨ps, st, ⟨d, []⟩ :: rest⟩ =
          FileFilter.nextLoop fs n ⟨ps, st, rest⟩ := by
        simp only [FileFilter.nextLoop]
      have stepQ : FileFilter.nextLoop fs (n + 1) ⟨qs, st, ⟨d, []⟩ :: rest⟩ =
          FileFilter.nextLoop fs n ⟨qs, st, rest⟩ := by
        simp only [FileFilter.nextLoop]
      rcases ih st rest with ⟨h1, h2⟩ | ⟨r, stk2, h1, h2⟩
      · exact Or.inl ⟨stepP.trans h1, stepQ.trans h2⟩
      · exact Or.inr ⟨r, stk2, stepP.trans h1, stepQ.trans h2⟩
    rcases item with e | p0
    · refine Or.inr ⟨some (.error e), ⟨d, more⟩ :: rest, ?_, ?_⟩
      · simp only [FileFilter.nextLoop]
      · simp only [FileFilter.nextLoop]
    · obtain ⟨out, stk2, hpeP, hpeQ⟩ :=
        process_entry_congr h st (⟨d, more⟩ :: rest) p0
      cases out with
      | some r0 =>
        refine Or.inr ⟨some r0, stk2, ?_, ?_⟩
        · simp only [FileFilter.nextLoop]; rw [hpeP]
        · simp only [FileFilter.nextLoop]; rw [hpeQ]
      | none =>
        have stepP : FileFilter.nextLoop fs (n + 1) ⟨ps, st, ⟨d, Except.ok p0 :: more⟩ :: rest⟩ =
            FileFilter.nextLoop fs n ⟨ps, st, stk2⟩ := by
          simp only [FileFilter.nextLoop]; rw [hpeP]
        have stepQ : FileFilter.nextLoop fs (n + 1) ⟨qs, st, ⟨d, Except.ok p0 :: more⟩ :: rest⟩ =
            FileFilter.nextLoop fs n ⟨qs, st, stk2⟩ := by
          simp only [FileFilter.nextLoop]; rw [hpeQ]
        rcases ih st stk2 with ⟨h1, h2⟩ | ⟨r, stk3, h1, h2⟩
        · exact Or.inl ⟨stepP.trans h1, stepQ.trans h2⟩
        · exact Or.inr ⟨r, stk3, stepP.trans h1, stepQ.trans h2⟩

/-- `next` under conjunction-equivalent predicate lists. -/
theorem next_congr {fs : FS} {ps qs : List (Path → Bool)}
    (h : ∀ p, passesAll ps p = passesAll qs p) (fuel : Nat) (st : Option Path)
    (stk : List ReadDir) :
    (FileFilter.next ⟨ps, st, stk⟩ fs fuel = none ∧
      FileFilter.next ⟨qs, st, stk⟩ fs fuel = none) ∨
    (∃ r st2 stk2,
      FileFilter.next ⟨ps, st, stk⟩ fs fuel = some (r, ⟨ps, st2, stk2⟩) ∧
      FileFilter.next ⟨qs, st, stk⟩ fs fuel = some (r, ⟨qs, st2, stk2⟩)) := by
  rcases st with _ | root
  · rcases nextLoop_congr h fuel none stk with ⟨h1, h2⟩ | ⟨r, stk2, h1, h2⟩
    · exact Or.inl ⟨h1, h2⟩
    · exact Or.inr ⟨r, none, stk2, h1, h2⟩
  · obtain ⟨out, stk2, hpeP, hpeQ⟩ := process_entry_congr h none stk root
    cases out with
    | some r0 =>
      refine Or.inr ⟨some r0, none, stk2, ?_, ?_⟩
      · rw [FileFilter.next]; simp only; rw [hpeP]
      · rw [FileFilter.next]; simp only; rw [hpeQ]
    | none =>
      have stepP : FileFilter.next ⟨ps, some root, stk⟩ fs fuel =
          FileFilter.nextLoop fs fuel ⟨ps, none, stk2⟩ := by
        rw [FileFilter.next]; simp only; rw [hpeP]
      have stepQ : FileFilter.next ⟨qs, some root, stk⟩ fs fuel =
          FileFilter.nextLoop fs fuel ⟨qs, none, stk2⟩ := by
        rw [FileFilter.next]; simp only; rw [hpeQ]
      rcases nextLoop_congr h fuel none stk2 with ⟨h1, h2⟩ | ⟨r, stk3, h1, h2⟩
      · exact Or.inl ⟨stepP.trans h1, stepQ.trans h2⟩
      · exact Or.inr ⟨r, none, stk3, stepP.trans h1, stepQ.trans h2⟩

/-- Complete runs under conjunction-equivalent predicate lists produce
identical item sequences. -/
theorem run_congr {fs : FS} {ps qs : List (Path → Bool)}
    (h : ∀ p, passesAll ps p = passesAll qs p) :
    ∀ (fuel : Nat) (st : Option Path) (stk : List ReadDir),
      FileFilter.run fs fuel ⟨ps, st, stk⟩ = FileFilter.run fs fuel ⟨qs, st, stk⟩ := by
  intro fuel
  induction fuel with
  | zero => intro st stk; rfl
  | succ n ih =>
    intro st stk
    rcases next_congr h n st stk with ⟨h1, h2⟩ | ⟨r, st2, stk2, h1, h2⟩
    · rw [FileFilter.run, FileFilter.run, h1, h2]
    · rw [FileFilter.run, FileFilter.run, h1, h2]
      cases r with
      | none => rfl
      | some item => simp only [ih st2 stk2]

/-! ## Builder construction -/

/-- Folding `add_filter` appends the predicates in registration order. -/
theorem foldl_add_filter (ps qs : List (Path → Bool)) (st : Option Path)
    (stk : List ReadDir) :
    ps.foldl FileFilter.add_filter ⟨qs, st, stk⟩ = ⟨qs ++ ps, st, stk⟩ := by
  induction ps generalizing qs with
  | nil => simp
  | cons p ps ih =>
    simp [List.foldl_cons, FileFilter.add_filter, ih, List.append_assoc]

/-- A walker built by `new` followed by chained `add_filter` calls is the
state with the registered predicates, the pending root, and an empty
stack. -/
theorem new_add_filters (ps : List (Path → Bool)) (root : Path) :
    ps.foldl FileFilter.add_filter (FileFilter.new root) = ⟨ps, some root, []⟩ := by
  simpa [FileFilter.new] using foldl_add_filter ps [] (some root) []

/-! ## Concrete fixtures for the witnesses -/

/-- Fixture tree: `root/(a.txt, sub/(b.txt), c.log)`. -/
def tree1 : FsTree :=
  .dir "root" (.cons (.file "root/a.txt")
    (.cons (.dir "root/sub" (.cons (.file "root/sub/b.txt") .nil))
      (.cons (.file "root/c.log") .nil)))

/-- An oracle on which every filesystem call fails: nothing exists. -/
def fsMissing : FS :=
  { metadata := fun _ => .error "no such file or directory",
    read_dir := fun _ => .error "no such file or directory" }

/-- A small oracle with a root directory holding a file, an unopenable
subdirectory, and an entry whose metadata check fails. -/
def fsDemo : FS :=
  { metadata := fun p =>
      if p = "root" then .ok true
      else if p = "root/locked" then .ok true
      else if p = "root/gone" then .error "stat failed"
      else .ok false,
    read_dir := fun p =>
      if p = "root" then
        .ok [.ok "root/a.txt", .error "read interrupted", .ok "root/locked",
          .ok "root/gone"]
      else if p = "root/locked" then .error "permission denied"
      else .error "not a directory" }

/-! ## The claims -/

/-- C1: for every finite, error-free directory tree (distinct paths, as
on a real filesystem) and every registered predicate list, a complete
traversal from the root produces exactly the non-directory paths under
the root that satisfy all predicates, each exactly once — in particular,
with zero predicates every file is produced exactly once. -/
theorem C1_completeness (t : FsTree) (ps : List (Path → Bool)) (fuel : Nat)
    (hnd : t.paths.Nodup) (hf : 2 * t.size + 1 < fuel) :
    FileFilter.run (fsOfTree t) fuel
        (ps.foldl FileFilter.add_filter (FileFilter.new t.path)) =
      some ((t.files.filter (passesAll ps)).map Except.ok) ∧
    (t.files.filter (passesAll ps)).Nodup := by
  constructor
  · rw [new_add_filters]
    exact run_tree t ps fuel hnd hf
  · exact List.Nodup.filter _
      (List.Nodup.sublist (FsTree.files_sublist_paths t) hnd)

theorem C1_completeness_witness :
    (tree1.paths.Nodup ∧ 2 * tree1.size + 1 < 12) ∧
    (FileFilter.run (fsOfTree tree1) 12
        (List.foldl FileFilter.add_filter (FileFilter.new tree1.path) []) =
      some ((tree1.files.filter (passesAll [])).map Except.ok) ∧
    (tree1.files.filter (passesAll [])).Nodup) :=
  ⟨⟨by decide, by decide⟩, C1_completeness tree1 [] 12 (by decide) (by decide)⟩

/-- C2: every path yielded as a successful item passes every registered
predicate; no path failing any registered predicate is ever produced as
a successful item. -/
theorem C2_predicate_conjunction (fs : FS) (fuel : Nat)
    (ps : List (Path → Bool)) (root : Path) (out : List Item)
    (h : FileFilter.run fs fuel
        (ps.foldl FileFilter.add_filter (FileFilter.new root)) = some out)
    (p : Path) (hp : Except.ok p ∈ out) :
    ps.all (fun f => f p) = true := by
  rw [new_add_filters] at h
  exact (run_sound fuel ⟨ps, some root, []⟩ out h p hp).1

theorem C2_predicate_conjunction_witness :
    List.all [fun p : Path => p != "root/c.log"] (fun f => f "root/a.txt") = true :=
  C2_predicate_conjunction (fsOfTree tree1) 12 [fun p => p != "root/c.log"]
    "root" [Except.ok "root/a.txt", Except.ok "root/sub/b.txt"] rfl
    "root/a.txt" (List.Mem.head _)

/-- C3: no path whose directory check reports a directory ever appears
as a successful item, regardless of which predicates are registered. -/
theorem C3_no_directories (fs : FS) (fuel : Nat) (ps : List (Path → Bool))
    (root : Path) (out : List Item)
    (h : FileFilter.run fs fuel
        (ps.foldl FileFilter.add_filter (FileFilter.new root)) = some out)
    (p : Path) (hp : Except.ok p ∈ out) :
    fs.is_dir p = false := by
  rw [new_add_filters] at h
  exact (run_sound fuel ⟨ps, some root, []⟩ out h p hp).2

theorem C3_no_directories_witness :
    (fsOfTree tree1).is_dir "root/a.txt" = false :=
  C3_no_directories (fsOfTree tree1) 12 [] "root"
    [Except.ok "root/a.txt", Except.ok "root/sub/b.txt", Except.ok "root/c.log"]
    rfl "root/a.txt" (List.Mem.head _)

/-- C4 as stated fails on the code: with a nonexistent root (every
metadata call fails) and no predicates registered, the first `next` call
returns the root as a successful item — `Path::is_dir` maps the failed
check to `false`, so `read_dir` is never attempted and no directory-open
error is produced; the whole sequence is that single successful item. -/
theorem C4_counterexample :
    FileFilter.next (FileFilter.new "/missing") fsMissing 5 =
      some (some (Except.ok "/missing"), ⟨[], none, []⟩) ∧
    FileFilter.run fsMissing 5 (FileFilter.new "/missing") =
      some [Except.ok "/missing"] :=
  ⟨rfl, rfl⟩

/-- C4 amended: for a `FileFilter` constructed with a nonexistent root
(directory check fails), the first call to `next` classifies the root as
a non-directory; with zero predicates it returns the root as a
successful item (not a directory-open error), and the sequence then
ends — the start seed is consumed and the stack never gains entries. -/
theorem C4_amended (fs : FS) (fuel : Nat) (root : Path) (e : Err)
    (hm : fs.metadata root = .error e) :
    FileFilter.next (FileFilter.new root) fs fuel =
      some (some (Except.ok root), ⟨[], none, []⟩) ∧
    FileFilter.run fs (fuel + 3) (FileFilter.new root) =
      some [Except.ok root] := by
  have hd : fs.is_dir root = false := by simp [FS.is_dir, hm]
  have hn : ∀ m, FileFilter.next (FileFilter.new root) fs m =
      some (some (Except.ok root), ⟨[], none, []⟩) := by
    intro m
    simp [FileFilter.next, FileFilter.new, FileFilter.process_entry, hd]
  have hend : FileFilter.next (⟨[], none, []⟩ : FileFilter) fs (fuel + 1) =
      some (none, ⟨[], none, []⟩) := by
    simp [FileFilter.next, FileFilter.nextLoop]
  exact ⟨hn fuel, by simp only [FileFilter.run, hn, hend]⟩

theorem C4_amended_witness :
    FileFilter.next (FileFilter.new "/gone") fsMissing 2 =
      some (some (Except.ok "/gone"), ⟨[], none, []⟩) ∧
    FileFilter.run fsMissing 5 (FileFilter.new "/gone") =
      some [Except.ok "/gone"] :=
  C4_amended fsMissing 2 "/gone" "no such file or directory" rfl

/-- C5: when a discovered path is a directory but opening it for listing
fails, that failure is the item returned by this call, nothing is pushed
onto the stack (so the failed directory's listing never enters the
stack and no file beneath it can be yielded), and the remaining stacked
listings are exactly as before, so traversal continues from them. -/
theorem C5_open_failure (fs : FS) (fuel : Nat) (ps : List (Path → Bool))
    (d p : Path) (e : Err) (more : List Item) (rest : List ReadDir)
    (h1 : fs.is_dir p = true) (h2 : fs.read_dir p = .error e) :
    FileFilter.next ⟨ps, none, ⟨d, Except.ok p :: more⟩ :: rest⟩ fs (fuel + 1) =
      some (some (Except.error e), ⟨ps, none, ⟨d, more⟩ :: rest⟩) := by
  simp [FileFilter.next, FileFilter.nextLoop, FileFilter.process_entry,
    FileFilter.push, h1, h2]

theorem C5_open_failure_witness :
    fsDemo.is_dir "root/locked" = true ∧
    fsDemo.read_dir "root/locked" = .error "permission denied" ∧
    FileFilter.next ⟨[], none, [⟨"root", [Except.ok "root/locked"]⟩]⟩ fsDemo 4 =
      some (some (Except.error "permission denied"),
        ⟨[], none, [⟨"root", []⟩]⟩) :=
  ⟨rfl, rfl, C5_open_failure fsDemo 3 [] "root" "root/locked"
    "permission denied" [] [] rfl rfl⟩

/-- C6: on a finite error-free tree (distinct paths) the produced
sequence is finite: with enough fuel the run reaches the
end-of-sequence signal. -/
theorem C6_termination (t : FsTree) (ps : List (Path → Bool)) (fuel : Nat)
    (hnd : t.paths.Nodup) (hf : 2 * t.size + 1 < fuel) :
    (FileFilter.run (fsOfTree t) fuel
        (ps.foldl FileFilter.add_filter (FileFilter.new t.path))).isSome = true := by
  rw [new_add_filters, run_tree t ps fuel hnd hf]
  rfl

theorem C6_termination_witness :
    (FileFilter.run (fsOfTree tree1) 12
        (List.foldl FileFilter.add_filter (FileFilter.new tree1.path)
          [fun p : Path => p != "root/c.log"])).isSome = true :=
  C6_termination tree1 [fun p : Path => p != "root/c.log"] 12
    (by decide) (by decide)

/-- C7: the start seed holds the root at construction, and after any
completed `next` call (the first one included) the start field is
absent — so it is consumed at most once and stays absent in every
reachable state. -/
theorem C7_start_consumed (fs : FS) (fuel : Nat) (s s2 : FileFilter)
    (r : Option Item) (root : Path)
    (h : FileFilter.next s fs fuel = some (r, s2)) :
    (FileFilter.new root).start = some root ∧ s2.start = none :=
  ⟨rfl, (next_sound h).2.1⟩

theorem C7_start_consumed_witness :
    (FileFilter.new "/gone").start = some "/gone" ∧
    (⟨[], none, []⟩ : FileFilter).start = none :=
  C7_start_consumed fsMissing 3 (FileFilter.new "/gone") ⟨[], none, []⟩
    (some (Except.ok "/gone")) "/gone" rfl

/-- C8: registering two predicates in either order produces identical
item sequences on every oracle and every fuel: predicates are
AND-combined, so registration order affects only evaluation order. -/
theorem C8_filter_order (fs : FS) (fuel : Nat) (root : Path)
    (a b : Path → Bool) :
    FileFilter.run fs fuel (((FileFilter.new root).add_filter a).add_filter b) =
      FileFilter.run fs fuel (((FileFilter.new root).add_filter b).add_filter a) := by
  have hab : ∀ p, passesAll [a, b] p = passesAll [b, a] p := by
    intro p
    cases ha : a p <;> cases hb : b p <;> simp [passesAll, ha, hb]
  have h1 : ((FileFilter.new root).add_filter a).add_filter b =
      (⟨[a, b], some root, []⟩ : FileFilter) := rfl
  have h2 : ((FileFilter.new root).add_filter b).add_filter a =
      (⟨[b, a], some root, []⟩ : FileFilter) := rfl
  rw [h1, h2]
  exact run_congr hab fuel (some root) []

/-- C9: a read error from the top-of-stack listing is returned as the
current item; no listing is pushed or popped — the same listing stays on
top (its erroring entry consumed, since `ReadDir::next` advanced past
it) and every listing below is untouched, so the subsequent call
consults the same listing again. -/
theorem C9_read_error (fs : FS) (fuel : Nat) (ps : List (Path → Bool))
    (d : Path) (e : Err) (more : List Item) (rest : List ReadDir) :
    FileFilter.next ⟨ps, none, ⟨d, Except.error e :: more⟩ :: rest⟩ fs (fuel + 1) =
      some (some (Except.error e), ⟨ps, none, ⟨d, more⟩ :: rest⟩) := by
  simp [FileFilter.next, FileFilter.nextLoop]

/-- C10: a path whose directory check fails (metadata error) is
classified as a non-directory and tested against the predicates; when
all pass (in particular with zero predicates) the inaccessible path is
yielded as a successful item and no error item is produced for it. -/
theorem C10_failed_check_yields (fs : FS) (fuel : Nat)
    (ps : List (Path → Bool)) (d p : Path) (e : Err) (more : List Item)
    (rest : List ReadDir) (hm : fs.metadata p = .error e)
    (hp : ps.all (fun f => f p) = true) :
    fs.is_dir p = false ∧
    FileFilter.next ⟨ps, none, ⟨d, Except.ok p :: more⟩ :: rest⟩ fs (fuel + 1) =
      some (some (Except.ok p), ⟨ps, none, ⟨d, more⟩ :: rest⟩) := by
  have hd : fs.is_dir p = false := by simp [FS.is_dir, hm]
  exact ⟨hd, by
    simp [FileFilter.next, FileFilter.nextLoop, FileFilter.process_entry, hd, hp]⟩

theorem C10_failed_check_yields_witness :
    fsDemo.is_dir "root/gone" = false ∧
    FileFilter.next ⟨[], none, [⟨"root", [Except.ok "root/gone"]⟩]⟩ fsDemo 6 =
      some (some (Except.ok "root/gone"), ⟨[], none, [⟨"root", []⟩]⟩) :=
  C10_failed_check_yields fsDemo 5 [] "root" "root/gone" "stat failed" [] []
    rfl rfl

end FileFilterModel
